import Mathlib

/-!
# Verification of MIGraphX graph-rewrite passes

Shallow embedding of the rewrite passes in `src/fuse_reduce.cpp`,
`src/simplify_qdq.cpp` and `src/eliminate_concat.cpp`, together with proofs
of the specified properties.  Shapes are modelled by their `lens` (list of
dimension sizes); instruction graphs by lists of instructions indexed by
position.
-/

namespace MIGraphX

/-! ## fuse_reduce.cpp: `fused_reduce::compute_shape`

A shape is modelled by its `lens`; strides and element type do not affect
the rank property.  A submodule is modelled by its sorted parameter list
(name, lens) and its list of output lens.  Every `MIGRAPHX_THROW` and every
out-of-range vector access is modelled as `none`. -/

structure SubMod where
  params : List (String × List Nat)
  outShapes : List (List Nat)
deriving DecidableEq, Repr

/-- All lists in a list of lists have the same length
(`check_shapes.same_ndims`). -/
def sameNdims : List (List Nat) → Bool
  | [] => true
  | l :: ls => ls.all fun l2 => l2.length = l.length

/-- Insert into a list sorted by name (helper for modelling `std::sort`). -/
def insertByName (p : String × List Nat) :
    List (String × List Nat) → List (String × List Nat)
  | [] => [p]
  | q :: qs => if p.1 ≤ q.1 then p :: q :: qs else q :: insertByName p qs

/-- Sort a parameter list by name (models `std::sort` on parameter names). -/
def sortByName : List (String × List Nat) → List (String × List Nat)
  | [] => []
  | p :: ps => insertByName p (sortByName ps)

/-- Sorted parameter names of a submodule (`get_parameter_names` followed by
`std::sort`). -/
def SubMod.sortedParams (sm : SubMod) : List (String × List Nat) :=
  sortByName sm.params

/-- Embedding of `fused_reduce::compute_shape` (src/fuse_reduce.cpp).  Returns
the lens of the computed output shape, or `none` where the C++ code throws.
`shape::from_permutation` only permutes strides, so the returned lens are the
`lens` vector computed in the body. -/
def fused_reduce_compute_shape (axes : List Nat) (inputs : List (List Nat))
    (mods : List SubMod) : Option (List Nat) :=
  match mods with
  | [sm] =>
    if sm.outShapes.length ≠ 1 then none
    else
      let names := sm.sortedParams
      if inputs.length ≠ names.length then none
      else if ¬ sameNdims inputs then none
      else if ¬ (List.zip names inputs).all
          (fun p => p.1.2 = p.2) then none
      else
        match inputs with
        | [] => none
        | s :: _ =>
          let outLens := sm.outShapes.headD []
          if s = outLens then some s
          else some (axes.foldl (fun l a => l.set a 1) s)
  | _ => none

theorem foldl_set_length (axes : List Nat) (l : List Nat) :
    (axes.foldl (fun acc a => acc.set a 1) l).length = l.length := by
  induction axes generalizing l with
  | nil => rfl
  | cons a as ih => simpa [List.foldl_cons] using ih (l.set a 1)

/-- C1: for every fused_reduce instruction, the rank of the computed output
shape equals the rank of the first input's shape: whenever
`fused_reduce_compute_shape` succeeds, the output lens have the same length
as the first input's lens — reduced axes are set to length 1, never
dropped. -/
theorem fused_reduce_compute_shape_rank (axes : List Nat)
    (inputs : List (List Nat)) (mods : List SubMod) (out : List Nat)
    (h : fused_reduce_compute_shape axes inputs mods = some out) :
    out.length = (inputs.headD []).length := by
  unfold fused_reduce_compute_shape at h
  match mods with
  | [] => simp at h
  | _ :: _ :: _ => simp at h
  | [sm] =>
    simp only at h
    split at h
    · exact absurd h (by simp)
    · split at h
      · exact absurd h (by simp)
      · split at h
        · exact absurd h (by simp)
        · split at h
          · exact absurd h (by simp)
          · match inputs with
            | [] => simp at h
            | s :: rest =>
              simp only at h
              split at h
              · simp only [Option.some.injEq] at h
                subst h; rfl
              · simp only [Option.some.injEq] at h
                subst h
                simpa using foldl_set_length axes s

/-- Witness for C1 at a concrete input: a sum over axis 1 of a [4,8] tensor
has output lens [4,1], rank 2 = rank 2. -/
theorem fused_reduce_compute_shape_rank_witness :
    fused_reduce_compute_shape [1] [[4, 8]]
      [⟨[("x0", [4, 8])], [[4, 1]]⟩] = some [4, 1] ∧ ([4, 1] : List Nat).length = ([4, 8] : List Nat).length := by
  constructor
  · decide
  · exact fused_reduce_compute_shape_rank [1] [[4, 8]]
      [⟨[("x0", [4, 8])], [[4, 1]]⟩] [4, 1] (by decide)

/-! ## simplify_qdq.cpp: `match_find_quantizable_ops`, dot branch

Zero points are constant integer tensors (the matcher requires
`match::is_constant`); an instruction's evaluated constant is modelled as
`Option (List Int)`, `none` when `can_eval()` is false.  `float_equal(v, 0)`
on the int8 values is integer equality with 0. -/

/-- Embedding of `match_find_quantizable_ops::is_symmetric_zero_point`
(src/simplify_qdq.cpp): false when the zero point cannot be evaluated,
otherwise true exactly when every element is zero. -/
def is_symmetric_zero_point : Option (List Int) → Bool
  | none => false
  | some z => z.all fun v => v = 0

/-- The zero-point correction instructions that the dot branch of
`match_find_quantizable_ops::apply` combines into `out_zp`: a `quant_dot`
of `zp1_bc` with `qop_args[1]` added for operand 1, a `quant_dot` of
`qop_args[0]` with `zp2_bc` added for operand 2, and the `za*zb` cross
`quant_dot` of `zp1_bc` with `zp2_bc`, subtracted. -/
inductive ZpTerm
  | corr1
  | corr2
  | cross
deriving DecidableEq, Repr

/-- Embedding of the three conditional `quant_dot` insertions in the dot
branch of `match_find_quantizable_ops::apply` (src/simplify_qdq.cpp):
`corr1` when `not is_symmetric_zero_point(zp1)`, `corr2` when
`not is_symmetric_zero_point(zp2)`, and `cross` when both hold. -/
def dot_zero_point_terms (zp1 zp2 : Option (List Int)) : List ZpTerm :=
  (if ¬ is_symmetric_zero_point zp1 then [ZpTerm.corr1] else []) ++
  (if ¬ is_symmetric_zero_point zp2 then [ZpTerm.corr2] else []) ++
  (if ¬ is_symmetric_zero_point zp1 ∧ ¬ is_symmetric_zero_point zp2
    then [ZpTerm.cross] else [])

/-- C2: a zero-point-correction `quant_dot` is inserted for an operand iff
that operand's zero point is not an all-zero constant; with exactly one
non-symmetric zero point exactly one correction `quant_dot` is produced;
and the `za*zb` cross term is subtracted only when both zero points are
non-symmetric. -/
theorem dot_zero_point_correction_iff (zp1 zp2 : Option (List Int)) :
    (ZpTerm.corr1 ∈ dot_zero_point_terms zp1 zp2 ↔
      ¬ (∃ l, zp1 = some l ∧ ∀ v ∈ l, v = 0)) ∧
    (ZpTerm.corr2 ∈ dot_zero_point_terms zp1 zp2 ↔
      ¬ (∃ l, zp2 = some l ∧ ∀ v ∈ l, v = 0)) ∧
    (ZpTerm.cross ∈ dot_zero_point_terms zp1 zp2 ↔
      (¬ is_symmetric_zero_point zp1 ∧ ¬ is_symmetric_zero_point zp2)) ∧
    (is_symmetric_zero_point zp1 ≠ is_symmetric_zero_point zp2 →
      (dot_zero_point_terms zp1 zp2).length = 1) := by
  have hchar : ∀ zp : Option (List Int),
      is_symmetric_zero_point zp = true ↔ ∃ l, zp = some l ∧ ∀ v ∈ l, v = 0 := by
    intro zp
    match zp with
    | none => simp [is_symmetric_zero_point]
    | some l => simp [is_symmetric_zero_point]
  refine ⟨?_, ?_, ?_, ?_⟩
  · rw [← hchar]
    cases h1 : is_symmetric_zero_point zp1 <;>
      cases h2 : is_symmetric_zero_point zp2 <;>
        simp [dot_zero_point_terms, h1, h2]
  · rw [← hchar]
    cases h1 : is_symmetric_zero_point zp1 <;>
      cases h2 : is_symmetric_zero_point zp2 <;>
        simp [dot_zero_point_terms, h1, h2]
  · cases h1 : is_symmetric_zero_point zp1 <;>
      cases h2 : is_symmetric_zero_point zp2 <;>
        simp [dot_zero_point_terms, h1, h2]
  · intro hne
    cases h1 : is_symmetric_zero_point zp1 <;>
      cases h2 : is_symmetric_zero_point zp2 <;>
        simp [h1, h2] at hne ⊢ <;>
          simp [dot_zero_point_terms, h1, h2]

/-- Witness for C2 at a concrete input: operand 1 has symmetric zero point
`[0]`, operand 2 has the non-symmetric constant `[5]`; exactly one
correction `quant_dot` is produced and it is the one for operand 2. -/
theorem dot_zero_point_correction_iff_witness :
    ZpTerm.corr2 ∈ dot_zero_point_terms (some [0]) (some [5]) ∧
    (dot_zero_point_terms (some [0]) (some [5])).length = 1 := by
  have h := dot_zero_point_correction_iff (some [0]) (some [5])
  refine ⟨h.2.1.mpr ?_, h.2.2.2 (by decide)⟩
  intro ⟨l, hl, hall⟩
  cases hl
  exact absurd (hall 5 (by simp)) (by decide)

/-! ## fuse_reduce.cpp: `create_reduce_modules`

An instruction is modelled by its operator name, the value of the "reduce"
attribute, its input list (ids of parent-module instructions) and its "axes"
operator value. -/

structure RInstr where
  name : String
  reduceAttr : Bool
  inputs : List Nat
  axes : List Int
deriving DecidableEq, Repr

/-- A submodule created by reduction fusion: its bypass flag and its body. -/
structure ReduceSubMod where
  bypass : Bool
  body : List RInstr
deriving DecidableEq, Repr

/-- A parent-module instruction after `create_reduce_modules`: either the
original instruction, or a `fused_reduce` carrying axes, inputs and a
submodule. -/
inductive MIns
  | orig (i : RInstr)
  | fused (axes : List Int) (inputs : List Nat) (sub : ReduceSubMod)
deriving DecidableEq, Repr

/-- Embedding of `create_reduce_modules` (src/fuse_reduce.cpp): for each
instruction, skip unless the operator's "reduce" attribute is set, skip
unless it has exactly one input; otherwise create a module, `set_bypass`,
insert the instruction, and replace it in the parent with `fused_reduce`
with the operator's axes and the instruction's inputs. -/
def create_reduce_modules (m : List RInstr) : List MIns :=
  m.map fun ins =>
    if ¬ ins.reduceAttr then .orig ins
    else if ins.inputs.length ≠ 1 then .orig ins
    else .fused ins.axes ins.inputs ⟨true, [ins]⟩

/-- C5 counterexample: an instruction whose operator carries the "reduce"
attribute but which has two inputs is left in place, not wrapped into a
fused_reduce, refuting the claim that every reduce-attribute instruction is
wrapped. -/
theorem create_reduce_modules_skips_two_input_reduce :
    (RInstr.mk "reduce_sum" true [0, 1] [0]).reduceAttr = true ∧
    create_reduce_modules [RInstr.mk "reduce_sum" true [0, 1] [0]] =
      [MIns.orig (RInstr.mk "reduce_sum" true [0, 1] [0])] := by
  constructor
  · rfl
  · rfl

/-- C5 (amended): every instruction whose operator carries the "reduce"
attribute *and which has exactly one input* is replaced, at its position,
by a `fused_reduce` instruction with the same axes and the same inputs,
whose submodule is a bypass module containing just that instruction. -/
theorem create_reduce_modules_wraps_single_input_reduce
    (m : List RInstr) (i : Nat) (ins : RInstr) (hm : m[i]? = some ins)
    (hattr : ins.reduceAttr = true) (hone : ins.inputs.length = 1) :
    (create_reduce_modules m)[i]? =
      some (MIns.fused ins.axes ins.inputs ⟨true, [ins]⟩) := by
  unfold create_reduce_modules
  rw [List.getElem?_map, hm]
  simp [hattr, hone]

/-- Witness for C5 (amended) at a concrete module: a single-input
reduce_mean over axis 0 is wrapped into a bypass submodule. -/
theorem create_reduce_modules_wraps_single_input_reduce_witness :
    (create_reduce_modules [RInstr.mk "reduce_mean" true [0] [0]])[0]? =
      some (MIns.fused [0] [0] ⟨true, [RInstr.mk "reduce_mean" true [0] [0]]⟩) :=
  create_reduce_modules_wraps_single_input_reduce
    [RInstr.mk "reduce_mean" true [0] [0]] 0
    (RInstr.mk "reduce_mean" true [0] [0]) rfl rfl rfl

/-! ## fuse_reduce.cpp: `used_once_except_broadcast`

A consumer of the candidate instruction is modelled by its identity
(`cid`), its operator name, and the ids of its own consumers. -/

structure Consumer where
  cid : Nat
  cname : String
  couts : List Nat
deriving DecidableEq, Repr

/-- Contiguous-sublist test on character lists (helper for `contains`). -/
def hasSubstr (pat : List Char) : List Char → Bool
  | [] => pat.isEmpty
  | c :: t => pat.isPrefixOf (c :: t) || hasSubstr pat t

/-- `contains(name, "broadcast")`: substring test on the operator name. -/
def nameHasBroadcast (s : String) : Bool :=
  hasSubstr "broadcast".toList s.toList

/-- Embedding of the predicate matcher `used_once_except_broadcast`
(src/fuse_reduce.cpp), applied to the candidate's output (consumer) list:
one consumer is accepted; with two consumers, `std::find_if` looks for the
first consumer whose name does not contain "broadcast" (failing when both
are broadcasts), and the result is `std::count_if(...) > 0` over the
consumers with the lambda translated clause by clause; three or more
consumers are rejected. -/
def used_once_except_broadcast (outs : List Consumer) : Bool :=
  if outs.length = 1 then true
  else if outs.length = 2 then
    match outs.find? (fun o => ¬ nameHasBroadcast o.cname) with
    | none => false
    | some nb =>
      0 < outs.countP (fun o =>
        if ¬ nameHasBroadcast o.cname then true
        else if o.couts.length ≠ 1 then true
        else o.couts.headD 0 != nb.cid)
  else false

/-- C6: the code accepts an instruction whose two consumers are both
non-broadcast instructions (two pointwise consumers, neither related to any
broadcast), although the claim requires the predicate to fail whenever the
extra consumer is not a single broadcasting instruction.  The non-broadcast
consumer found by `std::find_if` always satisfies the counted lambda, so
`count_if(...) > 0` holds for every two-consumer list containing at least
one non-broadcast consumer. -/
theorem used_once_except_broadcast_accepts_two_pointwise :
    used_once_except_broadcast
      [Consumer.mk 1 "pointwise" [5], Consumer.mk 2 "pointwise" [6]] = true := by
  rfl

/-! ## eliminate_concat.cpp

A non-final concat input is modelled by whether its strict output alias is
an allocation (`concat_optimizer::is_allocation` applied to
`instruction::get_output_alias(ins, true)`), its shape (lens and strides),
and whether the backend's `concat_optimization` supports non-packed output
for it. -/

structure CInput where
  aliasIsAlloc : Bool
  lens : List Nat
  strides : List Nat
  supportsNonPacked : Bool
deriving DecidableEq, Repr

/-- Embedding of `is_packed` (src/eliminate_concat.cpp): every dimension
whose stride is below the concat axis's stride is allowed; any other
dimension must have length 1. -/
def is_packed (lens strides : List Nat) (axis : Nat) : Bool :=
  let astride := strides.getD axis 0
  (lens.zip strides).all fun p => if p.2 < astride then true else p.1 = 1

/-- Embedding of `concat_optimizer::need_copy`: the input's strict output
alias is not an allocation. -/
def need_copy (inp : CInput) : Bool := ¬ inp.aliasIsAlloc

/-- The `count_if` lambda of `eliminate_concat::apply`: a non-final input
counts as needing a copy when its output alias is not an allocation, or
when it is not packed along the concat axis and the backend does not
support non-packed output. -/
def concat_input_needs_copy (axis : Nat) (input : CInput) : Bool :=
  if need_copy input then true
  else if is_packed input.lens input.strides axis then false
  else ¬ input.supportsNonPacked

inductive ConcatOutcome
  | kept
  | rewritten
deriving DecidableEq, Repr

/-- Embedding of the rewrite decision of `eliminate_concat::apply` together
with the early return of `concat_optimizer::replace_concat`
(src/eliminate_concat.cpp): count the non-final inputs needing a copy and
skip the concat when more than one does; `replace_concat` then returns
without rewriting unless the final input is an allocation. -/
def eliminate_concat_step (nonFinal : List CInput) (lastIsAlloc : Bool)
    (axis : Nat) : ConcatOutcome :=
  let ncopies := nonFinal.countP (concat_input_needs_copy axis)
  if 1 < ncopies then .kept
  else if ¬ lastIsAlloc then .kept
  else .rewritten

/-- C7: a concat is rewritten into in-place slice writes iff its final
input is an allocation and at most one non-final input needs a copy; in
particular when more than one input needs a copy the concat instruction is
kept unchanged. -/
theorem eliminate_concat_rewrite_iff (nonFinal : List CInput)
    (lastIsAlloc : Bool) (axis : Nat) :
    (eliminate_concat_step nonFinal lastIsAlloc axis = ConcatOutcome.rewritten ↔
      lastIsAlloc = true ∧
        nonFinal.countP (concat_input_needs_copy axis) ≤ 1) ∧
    (1 < nonFinal.countP (concat_input_needs_copy axis) →
      eliminate_concat_step nonFinal lastIsAlloc axis = ConcatOutcome.kept) := by
  constructor
  · by_cases h1 : 1 < nonFinal.countP (concat_input_needs_copy axis)
    · simp only [eliminate_concat_step, if_pos h1]
      constructor
      · intro h; exact absurd h (by simp)
      · intro ⟨_, hle⟩; omega
    · cases lastIsAlloc with
      | false => simp [eliminate_concat_step, h1]
      | true =>
        simp only [eliminate_concat_step, if_neg h1]
        simp
        omega
  · intro h1
    simp [eliminate_concat_step, h1]

/-- Witness for C7 at concrete inputs: two packed allocation-backed inputs
and an allocation as final input are rewritten; three inputs all needing
copies keep the concat. -/
theorem eliminate_concat_rewrite_iff_witness :
    eliminate_concat_step
      [CInput.mk true [1, 3] [3, 1] false, CInput.mk true [1, 3] [3, 1] false]
      true 0 = ConcatOutcome.rewritten ∧
    eliminate_concat_step
      [CInput.mk false [2, 3] [3, 1] false, CInput.mk false [2, 3] [3, 1] false,
       CInput.mk false [2, 3] [3, 1] false] true 0 = ConcatOutcome.kept := by
  constructor
  · exact (eliminate_concat_rewrite_iff
      [CInput.mk true [1, 3] [3, 1] false, CInput.mk true [1, 3] [3, 1] false]
      true 0).1.mpr (by decide)
  · exact (eliminate_concat_rewrite_iff
      [CInput.mk false [2, 3] [3, 1] false, CInput.mk false [2, 3] [3, 1] false,
       CInput.mk false [2, 3] [3, 1] false] true 0).2 (by decide)

/-! ## fuse_reduce.cpp: `insert_params`

A shape is modelled by lens and strides; `shape::as_standard` keeps the
lens and replaces the strides by the standard (contiguous, row-major)
strides.  A source instruction is modelled by its identity `pid` and its
shape; the instruction-to-submodule map `map_ins` by an association list
from source ids to parameter names; the submodule under construction by its
ordered parameter list. -/

structure PShape where
  lens : List Nat
  strides : List Nat
deriving DecidableEq, Repr

/-- Standard (packed, row-major) strides of a shape with the given lens:
the stride of a dimension is the product of the lens to its right. -/
def standardStrides : List Nat → List Nat
  | [] => []
  | _ :: t => t.prod :: standardStrides t

/-- `shape::as_standard`: same lens, standard strides. -/
def PShape.as_standard (s : PShape) : PShape :=
  ⟨s.lens, standardStrides s.lens⟩

structure PIns where
  pid : Nat
  shape : PShape
deriving DecidableEq, Repr

/-- Association-list lookup for the instruction map (`contains(map_ins,
input)` / `map_ins[input]`). -/
def lookupPid (mp : List (Nat × String)) (k : Nat) : Option String :=
  match mp with
  | [] => none
  | (k2, v) :: rest => if k2 = k then some v else lookupPid rest k

structure ParamModule where
  params : List (String × PShape)
deriving DecidableEq, Repr

/-- Recursion underlying `insert_params`: walk the inputs with the running
counter `n`, skipping inputs already in `map_ins`, otherwise adding the
parameter `"x" + std::to_string(n++)` with the standardized shape and
recording it in the map. -/
def insert_params_go (sm : ParamModule) (mp : List (Nat × String)) (n : Nat) :
    List PIns → ParamModule × List (Nat × String)
  | [] => (sm, mp)
  | input :: rest =>
    if (lookupPid mp input.pid).isSome then insert_params_go sm mp n rest
    else
      insert_params_go
        ⟨sm.params ++ [("x" ++ toString n, input.shape.as_standard)]⟩
        ((input.pid, "x" ++ toString n) :: mp) (n + 1) rest

/-- Embedding of `insert_params` (src/fuse_reduce.cpp): the counter starts
at `sm->get_parameter_shapes().size()`. -/
def insert_params (sm : ParamModule) (inputs : List PIns)
    (mp : List (Nat × String)) : ParamModule × List (Nat × String) :=
  insert_params_go sm mp sm.params.length inputs

/-- The external inputs that are not yet in the carry-over map, first
occurrence only (the claim-side description of which inputs become
parameters). -/
def freshInputs (seen : List Nat) : List PIns → List PIns
  | [] => []
  | i :: rest =>
    if i.pid ∈ seen then freshInputs seen rest
    else i :: freshInputs (i.pid :: seen) rest

/-- The claim-side description of the created parameters: the k-th fresh
input receives the name `x(n+k)` and the standardized form of its shape. -/
def expectedParams (n : Nat) : List PIns → List (String × PShape)
  | [] => []
  | i :: rest => ("x" ++ toString n, i.shape.as_standard) :: expectedParams (n + 1) rest

theorem lookupPid_isSome (mp : List (Nat × String)) (k : Nat) :
    (lookupPid mp k).isSome = true ↔ k ∈ mp.map Prod.fst := by
  induction mp with
  | nil => simp [lookupPid]
  | cons p rest ih =>
    simp only [lookupPid, List.map_cons, List.mem_cons]
    by_cases h : p.1 = k
    · simp [h]
    · rw [if_neg h, ih]
      constructor
      · exact fun hm => Or.inr hm
      · intro hm
        rcases hm with h1 | h2
        · exact absurd h1.symm h
        · exact h2

theorem insert_params_go_params (inputs : List PIns) :
    ∀ (sm : ParamModule) (mp : List (Nat × String)) (n : Nat),
    (insert_params_go sm mp n inputs).1.params =
      sm.params ++ expectedParams n (freshInputs (mp.map Prod.fst) inputs) := by
  induction inputs with
  | nil => intro sm mp n; simp [insert_params_go, freshInputs, expectedParams]
  | cons i rest ih =>
    intro sm mp n
    by_cases h : (lookupPid mp i.pid).isSome = true
    · have hmem : i.pid ∈ mp.map Prod.fst := (lookupPid_isSome mp i.pid).mp h
      rw [insert_params_go, if_pos h, ih]
      simp [freshInputs, hmem]
    · have hmem : i.pid ∉ mp.map Prod.fst := by
        intro hc
        exact h ((lookupPid_isSome mp i.pid).mpr hc)
      rw [insert_params_go, if_neg h, ih]
      simp only [freshInputs, if_neg hmem, expectedParams]
      simp [List.map_cons, List.append_assoc]

/-- C9: during submodule extraction, every external input not already in
the carry-over map becomes a parameter of the submodule; the parameters are
created in input order, named `"x"` followed by a counter that starts at the
submodule's current parameter count, and each carries the standardized
(contiguous) form of the source instruction's shape. -/
theorem insert_params_spec (sm : ParamModule) (inputs : List PIns)
    (mp : List (Nat × String)) :
    (insert_params sm inputs mp).1.params =
      sm.params ++
        expectedParams sm.params.length
          (freshInputs (mp.map Prod.fst) inputs) :=
  insert_params_go_params inputs sm mp sm.params.length

/-! ## fuse_reduce.cpp: bypass flag ordering (C10)

A submodule under construction is modelled by its bypass flag and, for each
instruction inserted into it, the value the flag had at insertion time.
`mpm.create_module` yields a module with the flag unset; `set_bypass` sets
it; every parameter/instruction insertion records the current flag.
`eliminate_common_subexpression` and `dead_code_elimination`
(`finalize_reduce_module`) only erase instructions, so they cannot
introduce an instruction inserted while the flag was unset and are modelled
as erasing an arbitrary suffix-closed subset — here by a function that
keeps any sublist, which preserves the recorded flags of the survivors. -/

structure BState where
  bypass : Bool
  insertedFlags : List Bool
deriving DecidableEq, Repr

/-- `mpm.create_module(...)`: fresh module, bypass unset, empty body. -/
def createModule : BState := ⟨false, []⟩

/-- `rm->set_bypass()`. -/
def BState.setBypass (s : BState) : BState := { s with bypass := true }

/-- Insert `k` instructions (parameters and copied instructions), each one
recording the current bypass flag. -/
def BState.insertMany (s : BState) (k : Nat) : BState :=
  { s with insertedFlags := s.insertedFlags ++ List.replicate k s.bypass }

/-- Module-operation order of `create_reduce_modules` on the new submodule
`rm`: create, `set_bypass`, then `insert_ins_in_submodule` (parameters plus
the reduce instruction, `k` insertions in all). -/
def create_reduce_modules_build (k : Nat) : BState :=
  (createModule.setBypass).insertMany k

/-- Module-operation order of `find_pointwise_reduce::apply` on `rm`:
create, `set_bypass`, insert the pointwise instruction (`kpw`), optionally
the matched broadcast (`kbc`), then the old reduce submodule (`kred`). -/
def find_pointwise_reduce_build (kpw kbc kred : Nat) (hasBroadcast : Bool) :
    BState :=
  let s := createModule.setBypass
  let s := s.insertMany kpw
  let s := if hasBroadcast then s.insertMany kbc else s
  s.insertMany kred

/-- Module-operation order of `find_reduce_pointwise::apply` on `rm`:
create, `set_bypass`, insert the old reduce submodule (`kred`), optionally
the broadcast (`kbc`), then the pointwise module (`kpw`). -/
def find_reduce_pointwise_build (kred kbc kpw : Nat) (hasBroadcast : Bool) :
    BState :=
  let s := createModule.setBypass
  let s := s.insertMany kred
  let s := if hasBroadcast then s.insertMany kbc else s
  s.insertMany kpw

/-- Module-operation order of `find_reduce_reduce::apply` on `rm`: the
function returns before creating any module when the two reduce operators
differ (`none`); otherwise create, `set_bypass`, insert reduce2 (`k2`),
optionally the broadcast (`kbc`), then reduce1 (`k1`). -/
def find_reduce_reduce_build (sameOp : Bool) (k2 kbc k1 : Nat)
    (hasBroadcast : Bool) : Option BState :=
  if ¬ sameOp then none
  else
    let s := createModule.setBypass
    let s := s.insertMany k2
    let s := if hasBroadcast then s.insertMany kbc else s
    some (s.insertMany k1)

theorem insertMany_flags (s : BState) (k : Nat) :
    (s.insertMany k).insertedFlags = s.insertedFlags ++ List.replicate k s.bypass ∧
    (s.insertMany k).bypass = s.bypass := ⟨rfl, rfl⟩

theorem all_true_of_bypass_build (s : BState)
    (hb : s.bypass = true) (hf : s.insertedFlags.all (· = true) = true) (k : Nat) :
    (s.insertMany k).bypass = true ∧
      (s.insertMany k).insertedFlags.all (· = true) = true := by
  refine ⟨hb, ?_⟩
  simp only [BState.insertMany, List.all_append, hf, Bool.true_and]
  simp [hb, List.all_eq_true]

/-- C10: every submodule created by `create_reduce_modules`,
`find_pointwise_reduce`, `find_reduce_pointwise` and `find_reduce_reduce`
has its bypass flag set before any instruction is inserted into it: in each
builder, every inserted instruction records bypass = true. -/
theorem fuse_reduce_submodules_bypass_before_insert
    (k kpw kbc kred k1 k2 : Nat) (hasBroadcast sameOp : Bool) :
    (create_reduce_modules_build k).insertedFlags.all (· = true) = true ∧
    (find_pointwise_reduce_build kpw kbc kred hasBroadcast).insertedFlags.all
      (· = true) = true ∧
    (find_reduce_pointwise_build kred kbc kpw hasBroadcast).insertedFlags.all
      (· = true) = true ∧
    (∀ s, find_reduce_reduce_build sameOp k2 kbc k1 hasBroadcast = some s →
      s.insertedFlags.all (· = true) = true) := by
  have base : (createModule.setBypass).bypass = true ∧
      (createModule.setBypass).insertedFlags.all (· = true) = true := ⟨rfl, rfl⟩
  have step : ∀ (s : BState), s.bypass = true →
      s.insertedFlags.all (· = true) = true →
      ∀ (k' : Nat), (s.insertMany k').bypass = true ∧
        (s.insertMany k').insertedFlags.all (· = true) = true := by
    intro s hb hf k'
    exact all_true_of_bypass_build s hb hf k'
  have opt : ∀ (s : BState), s.bypass = true →
      s.insertedFlags.all (· = true) = true →
      ∀ (b : Bool) (k' : Nat),
        (if b then s.insertMany k' else s).bypass = true ∧
        (if b then s.insertMany k' else s).insertedFlags.all (· = true) = true := by
    intro s hb hf b k'
    cases b with
    | false => exact ⟨hb, hf⟩
    | true => simpa using step s hb hf k'
  refine ⟨?_, ?_, ?_, ?_⟩
  · exact (step _ base.1 base.2 k).2
  · have h1 := step _ base.1 base.2 kpw
    have h2 := opt _ h1.1 h1.2 hasBroadcast kbc
    exact (step _ h2.1 h2.2 kred).2
  · have h1 := step _ base.1 base.2 kred
    have h2 := opt _ h1.1 h1.2 hasBroadcast kbc
    exact (step _ h2.1 h2.2 kpw).2
  · intro s hs
    unfold find_reduce_reduce_build at hs
    split at hs
    · exact absurd hs (by simp)
    · have h1 := step _ base.1 base.2 k2
      have h2 := opt _ h1.1 h1.2 hasBroadcast kbc
      have h3 := (step _ h2.1 h2.2 k1).2
      simp only [Option.some.injEq] at hs
      rw [← hs]
      exact h3

/-- Witness for C10 at concrete counts: the state built by
`find_reduce_reduce_build true 2 1 3 true` is
`⟨true, List.replicate 6 true⟩`, and the theorem yields that all its
recorded flags are true. -/
theorem fuse_reduce_submodules_bypass_before_insert_witness :
    (create_reduce_modules_build 2).insertedFlags.all (· = true) = true ∧
    (BState.mk true (List.replicate 6 true)).insertedFlags.all (· = true) = true := by
  have h := fuse_reduce_submodules_bypass_before_insert 2 1 1 1 3 2 true true
  exact ⟨h.1, h.2.2.2 (BState.mk true (List.replicate 6 true)) (by decide)⟩

/-! ## simplify_qdq.cpp: decline paths of `match_find_quantizable_ops::apply`

The module mutation performed by one `apply` invocation on a matched
candidate is modelled by the list of operator names inserted (in program
order; `insert_instruction` positions do not matter for whether the module
changed) and whether `replace_instruction(qop, dq)` was executed.  Both
branches (dot and convolution) are embedded; `k1`/`k2` are the numbers of
broadcast/transpose instructions that `propagate_quantized_ins` re-inserts
for the two arguments, `valid` is the conjunction of the per-operator
quantization-parameter checks (the four `is_valid_qparam` calls for dot;
the two scalar checks on scale1/zp1 plus the two axis-0 `is_valid_qparam`
calls for convolution). -/

inductive MType
  | int8
  | uint8
  | fp8e4m3fnuz
  | int32
  | float32
deriving DecidableEq, Repr

/-- `supported_types` in `match_find_quantizable_ops::apply`: only int8 or
fp8e4m3fnuz. -/
def supported_types : List MType := [MType.fp8e4m3fnuz, MType.int8]

structure QdqApplyEffect where
  inserted : List String
  replaced : Bool
deriving DecidableEq, Repr

/-- Embedding of the dot branch of `match_find_quantizable_ops::apply`
(src/simplify_qdq.cpp), recording insertions and the final replacement.
The element-type check returns before anything is inserted; the
`is_valid_qparam` check returns after `propagate_quantized_ins` has
re-inserted `k1 + k2` instructions and the `quant_dot` has been inserted. -/
def mfqo_apply_dot (t1 t2 : MType) (k1 k2 : Nat) (valid : Bool)
    (sym1 sym2 : Bool) : QdqApplyEffect :=
  if ¬ (t1 ∈ supported_types) ∨ ¬ (t2 ∈ supported_types) then ⟨[], false⟩
  else
    let prop := List.replicate k1 "propagated" ++ List.replicate k2 "propagated"
    let ins0 := prop ++ ["quant_dot"]
    if ¬ valid then ⟨ins0, false⟩
    else
      let ins1 := ins0 ++ ["broadcast", "broadcast", "mul", "@literal",
        "multibroadcast", "broadcast", "broadcast"]
      let ins2 := ins1 ++ (if ¬ sym1 then ["quant_dot", "add"] else [])
      let ins3 := ins2 ++ (if ¬ sym2 then ["quant_dot", "add"] else [])
      let ins4 := ins3 ++ (if ¬ sym1 ∧ ¬ sym2 then ["quant_dot", "sub"] else [])
      ⟨ins4 ++ ["dequantizelinear"], true⟩

/-- Embedding of the convolution branch of
`match_find_quantizable_ops::apply` (src/simplify_qdq.cpp), recording
insertions and the final replacement.  The shared element-type check
returns before anything is inserted; the quantization-parameter check
returns after `propagate_quantized_ins` has re-inserted `k1 + k2`
instructions and the `quant_convolution` has been inserted.  The correction
terms use `quant_convolution` instead of `quant_dot`; otherwise the
statement order matches the dot branch. -/
def mfqo_apply_conv (t1 t2 : MType) (k1 k2 : Nat) (valid : Bool)
    (sym1 sym2 : Bool) : QdqApplyEffect :=
  if ¬ (t1 ∈ supported_types) ∨ ¬ (t2 ∈ supported_types) then ⟨[], false⟩
  else
    let prop := List.replicate k1 "propagated" ++ List.replicate k2 "propagated"
    let ins0 := prop ++ ["quant_convolution"]
    if ¬ valid then ⟨ins0, false⟩
    else
      let ins1 := ins0 ++ ["broadcast", "broadcast", "mul", "@literal",
        "multibroadcast", "broadcast", "broadcast"]
      let ins2 := ins1 ++ (if ¬ sym1 then ["quant_convolution", "add"] else [])
      let ins3 := ins2 ++ (if ¬ sym2 then ["quant_convolution", "add"] else [])
      let ins4 := ins3 ++
        (if ¬ sym1 ∧ ¬ sym2 then ["quant_convolution", "sub"] else [])
      ⟨ins4 ++ ["dequantizelinear"], true⟩

/-- C3 counterexample: for an int8/int8 dot candidate whose quantization
parameters fail the per-axis validity check (with no skipped ops between
the dequantizes and the dot), the candidate is declined but the module is
*not* left unchanged: the `quant_dot` inserted before the check remains,
refuting "no instructions added". -/
theorem mfqo_apply_dot_qparam_decline_inserts :
    mfqo_apply_dot MType.int8 MType.int8 0 0 false true true =
      ⟨["quant_dot"], false⟩ ∧
    (mfqo_apply_dot MType.int8 MType.int8 0 0 false true true).inserted ≠ [] := by
  constructor
  · rfl
  · intro h
    simp [mfqo_apply_dot, supported_types] at h

/-- C3 (amended): for both dot and convolution candidates, when a
dequantize input's element type is not int8 or fp8e4m3fnuz the candidate is
declined with the module left fully unchanged (nothing inserted, nothing
replaced); when the quantization-parameter validity check on a scale or
zero point fails the candidate is not rewritten (the matched op is never
replaced), but the propagated copies and the quantized op
(`quant_dot`/`quant_convolution`) inserted before that check remain in the
module as dead instructions, to be removed by the `dead_code_elimination`
run that follows in `simplify_qdq::apply`. -/
theorem mfqo_apply_decline (t1 t2 : MType) (k1 k2 : Nat)
    (valid sym1 sym2 : Bool) :
    ((t1 ∉ supported_types ∨ t2 ∉ supported_types) →
      mfqo_apply_dot t1 t2 k1 k2 valid sym1 sym2 = ⟨[], false⟩ ∧
      mfqo_apply_conv t1 t2 k1 k2 valid sym1 sym2 = ⟨[], false⟩) ∧
    (valid = false →
      ((mfqo_apply_dot t1 t2 k1 k2 valid sym1 sym2).replaced = false ∧
        (mfqo_apply_dot t1 t2 k1 k2 valid sym1 sym2).inserted =
          List.replicate k1 "propagated" ++ List.replicate k2 "propagated" ++
            ["quant_dot"] ∨
        mfqo_apply_dot t1 t2 k1 k2 valid sym1 sym2 = ⟨[], false⟩) ∧
      ((mfqo_apply_conv t1 t2 k1 k2 valid sym1 sym2).replaced = false ∧
        (mfqo_apply_conv t1 t2 k1 k2 valid sym1 sym2).inserted =
          List.replicate k1 "propagated" ++ List.replicate k2 "propagated" ++
            ["quant_convolution"] ∨
        mfqo_apply_conv t1 t2 k1 k2 valid sym1 sym2 = ⟨[], false⟩)) := by
  constructor
  · intro h
    constructor
    · rw [mfqo_apply_dot, if_pos]
      tauto
    · rw [mfqo_apply_conv, if_pos]
      tauto
  · intro hv
    subst hv
    by_cases h : ¬ (t1 ∈ supported_types) ∨ ¬ (t2 ∈ supported_types)
    · constructor
      · right
        rw [mfqo_apply_dot, if_pos h]
      · right
        rw [mfqo_apply_conv, if_pos h]
    · constructor
      · left
        rw [mfqo_apply_dot, if_neg h]
        simp
      · left
        rw [mfqo_apply_conv, if_neg h]
        simp

/-- Witness for C3 (amended) at concrete inputs: a float32 operand declines
both candidate kinds with no change; an int8/int8 candidate with one
propagated op per argument and failing qparam check leaves the propagated
ops and the quantized op behind without replacing the matched op, for the
dot and the convolution branch alike. -/
theorem mfqo_apply_decline_witness :
    (mfqo_apply_dot MType.float32 MType.int8 0 0 true true true = ⟨[], false⟩ ∧
      mfqo_apply_conv MType.float32 MType.int8 0 0 true true true = ⟨[], false⟩) ∧
    ((mfqo_apply_dot MType.int8 MType.int8 1 1 false true true).replaced = false ∧
      (mfqo_apply_dot MType.int8 MType.int8 1 1 false true true).inserted =
        List.replicate 1 "propagated" ++ List.replicate 1 "propagated" ++
          ["quant_dot"] ∨
      mfqo_apply_dot MType.int8 MType.int8 1 1 false true true = ⟨[], false⟩) ∧
    ((mfqo_apply_conv MType.int8 MType.int8 1 1 false true true).replaced = false ∧
      (mfqo_apply_conv MType.int8 MType.int8 1 1 false true true).inserted =
        List.replicate 1 "propagated" ++ List.replicate 1 "propagated" ++
          ["quant_convolution"] ∨
      mfqo_apply_conv MType.int8 MType.int8 1 1 false true true = ⟨[], false⟩) := by
  refine ⟨?_, ?_, ?_⟩
  · exact (mfqo_apply_decline MType.float32 MType.int8 0 0 true true true).1
      (Or.inl (by decide))
  · exact ((mfqo_apply_decline MType.int8 MType.int8 1 1 false true true).2 rfl).1
  · exact ((mfqo_apply_decline MType.int8 MType.int8 1 1 false true true).2 rfl).2

/-! ## simplify_qdq.cpp: `remove_qdq_pairs` and `compare_literals` (C8)

A module is a list of instructions in program order; instruction identity
is the position in the list.  An instruction carries its operator name, its
input list (positions) and, modelling the external `instruction::eval` /
`get_literal` infrastructure absent from src/, an optional constant value
(`none` when `eval()` is empty).  Values are modelled as integers extended
with the two floating-point infinities; `float_equal` on them is equality
(fp8/int8/float scale values compared for exact equality), `std::isinf`
recognizes the two infinities.  `visit_all`'s same-type requirement and the
`at(2)` accesses are modelled by pattern matches: a module on which the C++
pass completes without aborting satisfies them, and ill-formed accesses are
modelled as leaving the argument in place.  `instruction::replace_argument`
replaces every occurrence of the old argument, so processing one
instruction maps each of its inputs independently. -/

inductive FVal
  | fin (v : Int)
  | pinf
  | minf
deriving DecidableEq, Repr

/-- `std::isinf`. -/
def fIsInf : FVal → Bool
  | FVal.fin _ => false
  | FVal.pinf => true
  | FVal.minf => true

/-- `migraphx::float_equal` on the modelled values. -/
def fEq (a b : FVal) : Bool := a = b

/-- An evaluated literal: shape lens plus flat contents. -/
structure Lit where
  lens : List Nat
  vals : List FVal
deriving DecidableEq, Repr

structure QIns where
  name : String
  inputs : List Nat
  lit : Option Lit
deriving DecidableEq, Repr

/-- A module: instruction list in program order; identity = position. -/
abbrev QMod := List QIns

/-- The broadcast unwrapping at the start of `compare_literals`: a
`broadcast`/`multibroadcast` instruction is replaced by its first input. -/
def unwrapBroadcast (m : QMod) (i : Nat) : Nat :=
  match m[i]? with
  | none => i
  | some ins =>
    if ins.name = "broadcast" ∨ ins.name = "multibroadcast" then
      match ins.inputs with
      | [] => i
      | j :: _ => j
    else i

/-- Evaluated constant of the instruction at position `i` (`eval()` /
`get_literal()`), `none` when the evaluation is empty. -/
def evalAt (m : QMod) (i : Nat) : Option Lit :=
  (m[i]?).bind (·.lit)

/-- Embedding of `compare_literals` (src/simplify_qdq.cpp): unwrap
broadcasts on both sides, fail when either side does not evaluate,
otherwise succeed when the two literals are equal outright, or when all
elements of both (`l1` from its second element on, `l2` entirely) equal
`l1.front()` up to shared infinity. -/
def compare_literals (m : QMod) (id1 id2 : Nat) : Bool :=
  match evalAt m (unwrapBroadcast m id1), evalAt m (unwrapBroadcast m id2) with
  | some l1, some l2 =>
    let h := l1.vals.headD (FVal.fin 0)
    let dse :=
      ((l1.vals.drop 1).all fun v => fEq v h || (fIsInf h && fIsInf v)) &&
      (l2.vals.all fun v => fEq v h || (fIsInf h && fIsInf v))
    (l1 = l2 : Bool) || dse
  | _, _ => false

/-- Inner comparison step of the `remove_qdq_pairs` loop, given the
quantize's input list `x :: s2 :: z2 :: _` (`q->inputs()`): when the scale
and zero-point literals agree per `compare_literals`, the argument `a` is
replaced by `x` (`q->inputs().front()`); otherwise kept. -/
def rewriteQ (m : QMod) (a s1 z1 : Nat) : List Nat → Nat
  | x :: s2 :: z2 :: _ =>
    if compare_literals m s1 s2 && compare_literals m z1 z2 then x else a
  | _ => a

/-- Step of the `remove_qdq_pairs` loop for a `dequantizelinear` argument,
given the dequantize's input list `q :: s1 :: z1 :: _` (`arg->inputs()`):
when the first input is a `quantizelinear`, compare the q/dq literals. -/
def rewriteDq (m : QMod) (a : Nat) : List Nat → Nat
  | qId :: s1 :: z1 :: _ =>
    match m[qId]? with
    | none => a
    | some q =>
      if q.name = "quantizelinear" then rewriteQ m a s1 z1 q.inputs else a
  | _ => a

/-- One argument of one instruction, as treated by the inner loop of
`remove_qdq_pairs`: when the argument is a `dequantizelinear` whose first
input is a `quantizelinear` and the scale and zero-point literals of the
two agree per `compare_literals`, the argument is replaced by the
quantize's first input; otherwise it is kept. -/
def rewriteArg (m : QMod) (a : Nat) : Nat :=
  match m[a]? with
  | none => a
  | some arg =>
    if arg.name = "dequantizelinear" then rewriteDq m a arg.inputs else a

/-- Processing one instruction of `remove_qdq_pairs`: each input is
rewritten against the current module state. -/
def processIns (m : QMod) (ins : QIns) : QIns :=
  { ins with inputs := ins.inputs.map (rewriteArg m) }

/-- One step of the outer loop: update the instruction at position `i`
in place. -/
def qdqStep (m : QMod) (i : Nat) : QMod :=
  match m[i]? with
  | none => m
  | some ins => m.set i (processIns m ins)

/-- The outer loop after visiting the first `k` instructions. -/
def qdqGo (m : QMod) (k : Nat) : QMod :=
  (List.range k).foldl qdqStep m

/-- Embedding of `remove_qdq_pairs` (src/simplify_qdq.cpp): visit every
instruction in program order, rewriting its arguments in place. -/
def remove_qdq_pairs (m : QMod) : QMod :=
  qdqGo m m.length

/-- Program-order well-formedness (spec data model: the graph is acyclic
and instructions are stored topologically): every input of an instruction
precedes it. -/
def wfModB (m : QMod) : Bool :=
  m.enum.all fun p => p.2.inputs.all (· < p.1)

theorem qdqStep_length (s : QMod) (i : Nat) : (qdqStep s i).length = s.length := by
  unfold qdqStep
  split
  · rfl
  · exact List.length_set ..

theorem qdqGo_succ (m : QMod) (k : Nat) :
    qdqGo m (k + 1) = qdqStep (qdqGo m k) k := by
  unfold qdqGo
  rw [List.range_succ, List.foldl_append]
  rfl

theorem qdqGo_length (m : QMod) (k : Nat) : (qdqGo m k).length = m.length := by
  induction k with
  | zero => rfl
  | succ k ih => rw [qdqGo_succ, qdqStep_length, ih]

theorem qdqStep_getElem_ne (s : QMod) (i j : Nat) (h : i ≠ j) :
    (qdqStep s i)[j]? = s[j]? := by
  unfold qdqStep
  split
  · rfl
  · simp [List.getElem?_set, h]

theorem qdqGo_untouched (m : QMod) (k j : Nat) (h : k ≤ j) :
    (qdqGo m k)[j]? = m[j]? := by
  induction k with
  | zero => rfl
  | succ k ih =>
    rw [qdqGo_succ, qdqStep_getElem_ne _ _ _ (by omega)]
    exact ih (by omega)

theorem qdqGo_frozen (m : QMod) (j k : Nat) (hj : j < k) :
    ∀ k', k ≤ k' → (qdqGo m k')[j]? = (qdqGo m k)[j]? := by
  intro k'
  induction k' with
  | zero => intro hk; omega
  | succ k' ih =>
    intro hk
    by_cases he : k = k' + 1
    · rw [he]
    · rw [qdqGo_succ, qdqStep_getElem_ne _ _ _ (by omega)]
      exact ih (by omega)

theorem final_getElem (m : QMod) (j : Nat) (hj : j < m.length) :
    (remove_qdq_pairs m)[j]? = (m[j]?).map (processIns (qdqGo m j)) := by
  unfold remove_qdq_pairs
  rw [qdqGo_frozen m j (j + 1) (by omega) m.length (by omega), qdqGo_succ]
  unfold qdqStep
  rw [qdqGo_untouched m j j le_rfl]
  match hm : m[j]? with
  | none =>
    show (qdqGo m j)[j]? = none
    rw [qdqGo_untouched m j j le_rfl]
    exact hm
  | some ins =>
    have hl : j < (qdqGo m j).length := by rw [qdqGo_length]; exact hj
    show (List.set (qdqGo m j) j (processIns (qdqGo m j) ins))[j]? = _
    rw [List.getElem?_set_eq_of_lt _ hl]
    rfl

/-- All instructions strictly below position `c` have their inputs strictly
below themselves. -/
def WfBelow (t : QMod) (c : Nat) : Prop :=
  ∀ j, j < c → ∀ ins, t[j]? = some ins → ∀ y ∈ ins.inputs, y < j

theorem unwrapBroadcast_le (t : QMod) (c a : Nat) (hwf : WfBelow t c)
    (ha : a < c) : unwrapBroadcast t a ≤ a := by
  unfold unwrapBroadcast
  match ht : t[a]? with
  | none => exact Nat.le_refl a
  | some ins =>
    show (if ins.name = "broadcast" ∨ ins.name = "multibroadcast" then
      match ins.inputs with
      | [] => a
      | j :: _ => j
      else a) ≤ a
    split
    · match hin : ins.inputs with
      | [] => exact Nat.le_refl a
      | j :: rest =>
        have : j < a := hwf a ha ins ht j (by rw [hin]; simp)
        exact Nat.le_of_lt this
    · exact Nat.le_refl a

theorem unwrapBroadcast_agree (s t : QMod) (c : Nat)
    (hag : ∀ j, j < c → s[j]? = t[j]?) (a : Nat) (ha : a < c) :
    unwrapBroadcast s a = unwrapBroadcast t a := by
  unfold unwrapBroadcast
  rw [hag a ha]

theorem evalAt_agree (s t : QMod) (c : Nat)
    (hag : ∀ j, j < c → s[j]? = t[j]?) (a : Nat) (ha : a < c) :
    evalAt s a = evalAt t a := by
  unfold evalAt
  rw [hag a ha]

theorem compare_literals_agree (s t : QMod) (c : Nat)
    (hag : ∀ j, j < c → s[j]? = t[j]?) (hwf : WfBelow t c)
    (id1 id2 : Nat) (h1 : id1 < c) (h2 : id2 < c) :
    compare_literals s id1 id2 = compare_literals t id1 id2 := by
  unfold compare_literals
  rw [unwrapBroadcast_agree s t c hag id1 h1,
    unwrapBroadcast_agree s t c hag id2 h2,
    evalAt_agree s t c hag (unwrapBroadcast t id1)
      (lt_of_le_of_lt (unwrapBroadcast_le t c id1 hwf h1) h1),
    evalAt_agree s t c hag (unwrapBroadcast t id2)
      (lt_of_le_of_lt (unwrapBroadcast_le t c id2 hwf h2) h2)]

theorem rewriteQ_agree (s t : QMod) (c : Nat)
    (hag : ∀ j, j < c → s[j]? = t[j]?) (hwf : WfBelow t c)
    (a s1 z1 : Nat) (hs1 : s1 < c) (hz1 : z1 < c)
    (l : List Nat) (hl : ∀ y ∈ l, y < c) :
    rewriteQ s a s1 z1 l = rewriteQ t a s1 z1 l := by
  match l with
  | [] => rfl
  | [_] => rfl
  | [_, _] => rfl
  | x :: s2 :: z2 :: rest =>
    simp only [rewriteQ]
    rw [compare_literals_agree s t c hag hwf s1 s2 hs1 (hl s2 (by simp)),
      compare_literals_agree s t c hag hwf z1 z2 hz1 (hl z2 (by simp))]

theorem rewriteDq_agree (s t : QMod) (c : Nat)
    (hag : ∀ j, j < c → s[j]? = t[j]?) (hwf : WfBelow t c)
    (a : Nat) (l : List Nat) (hl : ∀ y ∈ l, y < c) :
    rewriteDq s a l = rewriteDq t a l := by
  match l with
  | [] => rfl
  | [_] => rfl
  | [_, _] => rfl
  | qId :: s1 :: z1 :: rest =>
    have hq : qId < c := hl qId (by simp)
    simp only [rewriteDq]
    rw [hag qId hq]
    match htq : t[qId]? with
    | none => rfl
    | some q =>
      show (if q.name = "quantizelinear" then rewriteQ s a s1 z1 q.inputs else a) =
        (if q.name = "quantizelinear" then rewriteQ t a s1 z1 q.inputs else a)
      split
      · exact rewriteQ_agree s t c hag hwf a s1 z1 (hl s1 (by simp)) (hl z1 (by simp))
          q.inputs (fun y hy => lt_trans (hwf qId hq q htq y hy) hq)
      · rfl

theorem rewriteArg_agree (s t : QMod) (c : Nat)
    (hag : ∀ j, j < c → s[j]? = t[j]?) (hwf : WfBelow t c)
    (a : Nat) (ha : a < c) : rewriteArg s a = rewriteArg t a := by
  unfold rewriteArg
  rw [hag a ha]
  match ht : t[a]? with
  | none => rfl
  | some arg =>
    show (if arg.name = "dequantizelinear" then rewriteDq s a arg.inputs else a) =
      (if arg.name = "dequantizelinear" then rewriteDq t a arg.inputs else a)
    split
    · exact rewriteDq_agree s t c hag hwf a arg.inputs
        (fun y hy => lt_trans (hwf a ha arg ht y hy) ha)
    · rfl

theorem rewriteQ_mem (t : QMod) (a s1 z1 : Nat) (l : List Nat) (r : Nat)
    (h : rewriteQ t a s1 z1 l = r) : r = a ∨ r ∈ l := by
  match l with
  | [] => exact Or.inl h.symm
  | [_] => exact Or.inl h.symm
  | [_, _] => exact Or.inl h.symm
  | x :: s2 :: z2 :: rest =>
    simp only [rewriteQ] at h
    split at h
    · exact Or.inr (by rw [← h]; simp)
    · exact Or.inl h.symm

theorem rewriteDq_mem (t : QMod) (a : Nat) (l : List Nat) (r : Nat)
    (h : rewriteDq t a l = r) :
    r = a ∨ ∃ qId q, qId ∈ l ∧ t[qId]? = some q ∧ r ∈ q.inputs := by
  match l with
  | [] => exact Or.inl h.symm
  | [_] => exact Or.inl h.symm
  | [_, _] => exact Or.inl h.symm
  | qId :: s1 :: z1 :: rest =>
    simp only [rewriteDq] at h
    match htq : t[qId]? with
    | none => exact Or.inl ((htq ▸ h).symm)
    | some q =>
      rw [htq] at h
      have h2 : (if q.name = "quantizelinear" then rewriteQ t a s1 z1 q.inputs
          else a) = r := h
      split at h2
      · rcases rewriteQ_mem t a s1 z1 q.inputs r h2 with h3 | h3
        · exact Or.inl h3
        · exact Or.inr ⟨qId, q, by simp, htq, h3⟩
      · exact Or.inl h2.symm

theorem rewriteArg_mem (t : QMod) (a r : Nat) (h : rewriteArg t a = r) :
    r = a ∨ ∃ arg qId q, t[a]? = some arg ∧ qId ∈ arg.inputs ∧
      t[qId]? = some q ∧ r ∈ q.inputs := by
  unfold rewriteArg at h
  match ht : t[a]? with
  | none => exact Or.inl ((ht ▸ h).symm)
  | some arg =>
    rw [ht] at h
    have h2 : (if arg.name = "dequantizelinear" then rewriteDq t a arg.inputs
        else a) = r := h
    split at h2
    · rcases rewriteDq_mem t a arg.inputs r h2 with h3 | ⟨qId, q, hmem, htq, hr⟩
      · exact Or.inl h3
      · exact Or.inr ⟨arg, qId, q, rfl, hmem, htq, hr⟩
    · exact Or.inl h2.symm

theorem wfModB_spec (m : QMod) (h : wfModB m = true) :
    ∀ (i : Nat) (ins : QIns), m[i]? = some ins → ∀ j ∈ ins.inputs, j < i := by
  intro i ins hi j hj
  have hmem : (i, ins) ∈ m.enum := List.mk_mem_enum_iff_getElem?.mpr hi
  unfold wfModB at h
  rw [List.all_eq_true] at h
  have h2 := h (i, ins) hmem
  rw [List.all_eq_true] at h2
  simpa using h2 j hj

/-- Main invariant: in the final state of `remove_qdq_pairs`, every input
of every instruction is both in bounds below its instruction and stable
under a further `rewriteArg`. -/
theorem final_clean (m : QMod)
    (hwf : ∀ (i : Nat) (ins : QIns), m[i]? = some ins → ∀ j ∈ ins.inputs, j < i) :
    ∀ (i : Nat) (ins : QIns), (remove_qdq_pairs m)[i]? = some ins →
      ∀ b ∈ ins.inputs, b < i ∧ rewriteArg (remove_qdq_pairs m) b = b := by
  intro i
  induction i using Nat.strong_induction_on with
  | _ i ih =>
    intro ins hins b hb
    have hilen : i < (remove_qdq_pairs m).length := by
      rcases List.getElem?_eq_some.mp hins with ⟨hlt, _⟩
      exact hlt
    have hmlen : i < m.length := by
      have hlen : (remove_qdq_pairs m).length = m.length := qdqGo_length m m.length
      omega
    have hfi := final_getElem m i hmlen
    rw [hins] at hfi
    match hm0 : m[i]? with
    | none => rw [hm0] at hfi; exact absurd hfi (by simp)
    | some ins0 =>
      rw [hm0] at hfi
      have hfi2 : ins = processIns (qdqGo m i) ins0 := Option.some.inj hfi
      have hag : ∀ j, j < i → (qdqGo m i)[j]? = (remove_qdq_pairs m)[j]? := by
        intro j hj
        show (qdqGo m i)[j]? = (qdqGo m m.length)[j]?
        exact (qdqGo_frozen m j i hj m.length (by omega)).symm
      have hwfF : WfBelow (remove_qdq_pairs m) i := by
        intro j hj ins2 hins2 y hy
        exact ((ih j hj) ins2 hins2 y hy).1
      have hb0 : b ∈ ins0.inputs.map (rewriteArg (qdqGo m i)) := by
        rw [hfi2] at hb
        simpa [processIns] using hb
      rcases List.mem_map.mp hb0 with ⟨a, hamem, hab⟩
      have ha : a < i := hwf i ins0 hm0 a hamem
      have hagree : rewriteArg (qdqGo m i) a = rewriteArg (remove_qdq_pairs m) a :=
        rewriteArg_agree (qdqGo m i) (remove_qdq_pairs m) i hag hwfF a ha
      have hbF : rewriteArg (remove_qdq_pairs m) a = b := by
        rw [← hagree]; exact hab
      rcases rewriteArg_mem (remove_qdq_pairs m) a b hbF with hba | hcase
      · constructor
        · omega
        · rw [hba, ← hba] at hbF ⊢
          exact hbF
      · rcases hcase with ⟨arg, qId, q, hFa, hqmem, hFq, hbq⟩
        have hqa : qId < a := hwfF a ha arg hFa qId hqmem
        have hrec := ih qId (by omega) q hFq b hbq
        exact ⟨by omega, hrec.2⟩

theorem list_map_id_of_mem {α : Type} (l : List α) (f : α → α)
    (h : ∀ a ∈ l, f a = a) : l.map f = l := by
  induction l with
  | nil => rfl
  | cons x xs ih =>
    rw [List.map_cons, h x (by simp), ih (fun a ha => h a (by simp [ha]))]

theorem set_self (t : QMod) (i : Nat) (ins : QIns) (h : t[i]? = some ins) :
    t.set i ins = t := by
  apply List.ext_getElem?
  intro n
  rw [List.getElem?_set]
  split
  · rename_i he
    subst he
    rcases List.getElem?_eq_some.mp h with ⟨hlt, _⟩
    simp [hlt, h.symm]
  · rfl

/-- C8: `remove_qdq_pairs` is idempotent on every module whose
instructions are stored in topological (program) order: running it twice
yields the same module as running it once. -/
theorem remove_qdq_pairs_idempotent (m : QMod) (hwf : wfModB m = true) :
    remove_qdq_pairs (remove_qdq_pairs m) = remove_qdq_pairs m := by
  have hclean := final_clean m (wfModB_spec m hwf)
  have hstep : ∀ i, qdqStep (remove_qdq_pairs m) i = remove_qdq_pairs m := by
    intro i
    unfold qdqStep
    match ht : (remove_qdq_pairs m)[i]? with
    | none => rfl
    | some ins =>
      have hid : processIns (remove_qdq_pairs m) ins = ins := by
        unfold processIns
        have : ins.inputs.map (rewriteArg (remove_qdq_pairs m)) = ins.inputs :=
          list_map_id_of_mem ins.inputs (rewriteArg (remove_qdq_pairs m))
            (fun a ha => (hclean i ins ht a ha).2)
        rw [this]
      show List.set (remove_qdq_pairs m) i (processIns (remove_qdq_pairs m) ins) =
        remove_qdq_pairs m
      rw [hid]
      exact set_self (remove_qdq_pairs m) i ins ht
  have hgo : ∀ k, qdqGo (remove_qdq_pairs m) k = remove_qdq_pairs m := by
    intro k
    induction k with
    | zero => rfl
    | succ k ih => rw [qdqGo_succ, ih, hstep]
  show qdqGo (remove_qdq_pairs m) (remove_qdq_pairs m).length = remove_qdq_pairs m
  exact hgo (remove_qdq_pairs m).length

/-- A small module with a collapsible quantize/dequantize pair:
`x -> quantizelinear(x, scale, zp) -> dequantizelinear(..) -> add`. -/
def exQdqModule : QMod :=
  [⟨"@literal", [], some ⟨[1], [FVal.fin 7]⟩⟩,
   ⟨"@literal", [], some ⟨[1], [FVal.fin 2]⟩⟩,
   ⟨"@literal", [], some ⟨[1], [FVal.fin 0]⟩⟩,
   ⟨"quantizelinear", [0, 1, 2], none⟩,
   ⟨"dequantizelinear", [3, 1, 2], none⟩,
   ⟨"add", [4, 4], none⟩]

/-- Witness for C8 at a concrete module containing a real qdq pair. -/
theorem remove_qdq_pairs_idempotent_witness :
    wfModB exQdqModule = true ∧
    remove_qdq_pairs (remove_qdq_pairs exQdqModule) = remove_qdq_pairs exQdqModule :=
  ⟨by decide, remove_qdq_pairs_idempotent exQdqModule (by decide)⟩

end MIGraphX
